import Mathlib

/-!
Verification of the statistical correlation and numerical-transform engine of
the repository (source files
src/report analysis system/project/src/services/analysis/math/correlationAnalysis.ts
and src/unnamed/part_013).

Modelling conventions.  JavaScript double values are embedded as exact
rationals extended with the special values Infinity, -Infinity and NaN
(constructor names inf, neginf, nan).  Rounding of doubles is not modelled:
every finite arithmetic result is kept exact.  The transcendental library
functions (Math.log, Math.exp, and Math.sqrt on arguments that are not
perfect squares of rationals) produce values that are not representable as
rationals; such results are embedded as the constructor unknown, meaning an
untracked double about which nothing is asserted.  All special-value
propagation rules (NaN absorption, signed-infinity arithmetic, division by
zero producing a signed infinity, comparisons with NaN being false) follow
the ECMAScript semantics of the source.  Negative zero is identified with
zero.  Comparisons whose operands are untracked return false; no verified
statement below depends on such a comparison.
-/

/-- Model of a JavaScript number: an exact rational, a signed infinity, NaN,
or an untracked value produced by a transcendental function. -/
inductive JSNum where
  | nan
  | inf
  | neginf
  | fin (q : ℚ)
  | unknown
deriving DecidableEq

namespace JSNum

/-- JavaScript addition on the model. -/
def jsAdd : JSNum → JSNum → JSNum
  | nan, _ => nan
  | _, nan => nan
  | unknown, _ => unknown
  | _, unknown => unknown
  | inf, neginf => nan
  | neginf, inf => nan
  | inf, _ => inf
  | _, inf => inf
  | neginf, _ => neginf
  | _, neginf => neginf
  | fin a, fin b => fin (a + b)

/-- JavaScript negation on the model. -/
def jsNeg : JSNum → JSNum
  | nan => nan
  | inf => neginf
  | neginf => inf
  | fin a => fin (-a)
  | unknown => unknown

/-- JavaScript subtraction, which agrees with adding the negation. -/
def jsSub (a b : JSNum) : JSNum := jsAdd a (jsNeg b)

/-- JavaScript multiplication on the model. -/
def jsMul : JSNum → JSNum → JSNum
  | nan, _ => nan
  | _, nan => nan
  | unknown, _ => unknown
  | _, unknown => unknown
  | inf, inf => inf
  | inf, neginf => neginf
  | neginf, inf => neginf
  | neginf, neginf => inf
  | inf, fin q => if q = 0 then nan else if 0 < q then inf else neginf
  | fin q, inf => if q = 0 then nan else if 0 < q then inf else neginf
  | neginf, fin q => if q = 0 then nan else if 0 < q then neginf else inf
  | fin q, neginf => if q = 0 then nan else if 0 < q then neginf else inf
  | fin a, fin b => fin (a * b)

/-- JavaScript division on the model.  Division of a nonzero finite value by
zero yields a signed infinity, 0/0 yields NaN, and a finite value divided by
an infinity yields zero. -/
def jsDiv : JSNum → JSNum → JSNum
  | nan, _ => nan
  | _, nan => nan
  | unknown, _ => unknown
  | _, unknown => unknown
  | inf, inf => nan
  | inf, neginf => nan
  | neginf, inf => nan
  | neginf, neginf => nan
  | inf, fin q => if 0 ≤ q then inf else neginf
  | neginf, fin q => if 0 ≤ q then neginf else inf
  | fin _, inf => fin 0
  | fin _, neginf => fin 0
  | fin a, fin b =>
    if b = 0 then (if 0 < a then inf else if a < 0 then neginf else nan)
    else fin (a / b)

/-- JavaScript Math.abs on the model. -/
def jsAbs : JSNum → JSNum
  | nan => nan
  | inf => inf
  | neginf => inf
  | fin a => fin |a|
  | unknown => unknown

/-- Exact rational square root: returns the root when the numerator and
denominator are both perfect squares, and none otherwise. -/
def ratSqrtExact (q : ℚ) : Option ℚ :=
  if (Nat.sqrt q.num.toNat : ℤ) * Nat.sqrt q.num.toNat = q.num ∧
      Nat.sqrt q.den * Nat.sqrt q.den = q.den then
    some ((Nat.sqrt q.num.toNat : ℚ) / (Nat.sqrt q.den : ℚ))
  else none

/-- JavaScript Math.sqrt on the model: exact on perfect squares of
nonnegative rationals, NaN on negative arguments, untracked otherwise. -/
def jsSqrt : JSNum → JSNum
  | nan => nan
  | inf => inf
  | neginf => nan
  | unknown => unknown
  | fin q =>
    if q < 0 then nan else
      match ratSqrtExact q with
      | some r => fin r
      | none => unknown

/-- JavaScript Math.log on the model: log of zero is -Infinity, log of a
negative number is NaN, log of one is zero, and every other finite value is
untracked. -/
def jsLog : JSNum → JSNum
  | nan => nan
  | inf => inf
  | neginf => nan
  | unknown => unknown
  | fin q => if q < 0 then nan else if q = 0 then neginf else if q = 1 then fin 0 else unknown

/-- JavaScript Math.exp on the model: exp of -Infinity is zero, exp of zero
is one, and every other finite value is untracked. -/
def jsExp : JSNum → JSNum
  | nan => nan
  | inf => inf
  | neginf => fin 0
  | unknown => unknown
  | fin q => if q = 0 then fin 1 else unknown

/-- JavaScript strict less-than: false whenever NaN is involved, and false
on untracked operands (no verified statement depends on the latter). -/
def jsLt : JSNum → JSNum → Bool
  | nan, _ => false
  | _, nan => false
  | unknown, _ => false
  | _, unknown => false
  | neginf, neginf => false
  | neginf, _ => true
  | _, neginf => false
  | _, inf => true
  | inf, _ => false
  | fin a, fin b => decide (a < b)

/-- JavaScript less-or-equal: false whenever NaN is involved, and false on
untracked operands (no verified statement depends on the latter). -/
def jsLe : JSNum → JSNum → Bool
  | nan, _ => false
  | _, nan => false
  | unknown, _ => false
  | _, unknown => false
  | neginf, _ => true
  | _, neginf => false
  | _, inf => true
  | inf, _ => false
  | fin a, fin b => decide (a ≤ b)

theorem jsAdd_nan_right (x : JSNum) : jsAdd x nan = nan := by cases x <;> rfl

theorem jsMul_nan_left (x : JSNum) : jsMul nan x = nan := by cases x <;> rfl

theorem jsMul_nan_right (x : JSNum) : jsMul x nan = nan := by cases x <;> rfl

theorem jsDiv_nan_left (x : JSNum) : jsDiv nan x = nan := by cases x <;> rfl

theorem jsDiv_nan_right (x : JSNum) : jsDiv x nan = nan := by cases x <;> rfl

theorem jsSub_nan_left (x : JSNum) : jsSub nan x = nan := by cases x <;> rfl

theorem jsSub_nan_right (x : JSNum) : jsSub x nan = nan := by cases x <;> rfl

theorem jsMul_fin_fin (a b : ℚ) : jsMul (fin a) (fin b) = fin (a * b) := rfl

theorem jsAdd_fin_fin (a b : ℚ) : jsAdd (fin a) (fin b) = fin (a + b) := rfl

theorem jsSub_fin_fin (a b : ℚ) : jsSub (fin a) (fin b) = fin (a + -b) := rfl

theorem jsDiv_fin_fin_of_ne (a b : ℚ) (hb : b ≠ 0) :
    jsDiv (fin a) (fin b) = fin (a / b) := by simp [jsDiv, hb]

end JSNum

open JSNum

/-- Result record returned by the correlation routines of
correlationAnalysis.ts: coefficient, p-value and the significance flag
computed as pValue < 0.05. -/
structure CorrelationResult where
  coefficient : JSNum
  pValue : JSNum
  significant : Bool
deriving DecidableEq

/-- Lanczos coefficients of gammaLn in correlationAnalysis.ts, as exact
rationals. -/
def gammaC : List ℚ :=
  [76.18009172947146, -86.50532032941677, 24.01409824083091,
   -1.231739572450155, 0.001208650973866179, -0.000005395239384953]

/-- Series accumulator of gammaLn: ser starts at 1.000000000190015 and the
loop adds c[j] / (x + j + 1) for j = 0..5. -/
def gammaLnSer (x : ℚ) : JSNum :=
  (List.range 6).foldl
    (fun s j => jsAdd s (jsDiv (fin (gammaC.getD j 0)) (fin (x + j + 1))))
    (fin 1.000000000190015)

/-- Model of gammaLn in correlationAnalysis.ts (Lanczos approximation).
The logarithms are transcendental, so the finite result is untracked; the
special-value behaviour (for example at x = 0, where the final division by
x produces Infinity) is modelled exactly. -/
def gammaLn (x : ℚ) : JSNum :=
  let tmp := jsSub (fin (x + 5.5)) (jsMul (fin (x + 0.5)) (jsLog (fin (x + 5.5))))
  jsAdd (jsNeg tmp) (jsLog (jsDiv (jsMul (fin 2.5066282746310005) (gammaLnSer x)) (fin x)))

/-- Tolerance 1e-8 of the continued-fraction evaluator. -/
def betaEpsilon : ℚ := 0.00000001

/-- One iteration m of the continued-fraction loop of betaCF in
correlationAnalysis.ts, acting on the state (c, d, h).  Returns the new
state and whether the termination test |del - 1| < epsilon succeeded.  The
source declares the per-iteration coefficient aa with const and then
reassigns it; the reassignment is modelled as a second let binding. -/
def betaCFStep (x : JSNum) (a b : ℚ) (m : ℕ) :
    JSNum × JSNum × JSNum → (JSNum × JSNum × JSNum) × Bool
  | (c, d, h) =>
    let qab := a + b
    let qap := a + 1
    let qam := a - 1
    let m2 : ℚ := 2 * m
    let aa1 := jsDiv (jsMul (fin ((m : ℚ) * (b - m))) x) (fin ((qam + m2) * (a + m2)))
    let d1 := jsAdd (fin 1) (jsMul aa1 d)
    let d2 := if jsLt (jsAbs d1) (fin betaEpsilon) then fin betaEpsilon else d1
    let c1 := jsAdd (fin 1) (jsDiv aa1 c)
    let c2 := if jsLt (jsAbs c1) (fin betaEpsilon) then fin betaEpsilon else c1
    let d3 := jsDiv (fin 1) d2
    let h1 := jsMul h (jsMul d3 c2)
    let aa2 := jsDiv (jsMul (jsNeg (fin ((a + m) * (qab + m)))) x) (fin ((a + m2) * (qap + m2)))
    let d4 := jsAdd (fin 1) (jsMul aa2 d3)
    let d5 := if jsLt (jsAbs d4) (fin betaEpsilon) then fin betaEpsilon else d4
    let c3 := jsAdd (fin 1) (jsDiv aa2 c2)
    let c4 := if jsLt (jsAbs c3) (fin betaEpsilon) then fin betaEpsilon else c3
    let d6 := jsDiv (fin 1) d5
    let del := jsMul d6 c4
    let h2 := jsMul h1 del
    ((c4, d6, h2), jsLt (jsAbs (jsSub del (fin 1))) (fin betaEpsilon))

/-- Fuelled continued-fraction loop: runs betaCFStep from iteration m while
fuel remains, stopping early when the termination test succeeds.  Returns
the final h together with a flag recording whether the loop terminated by
meeting the tolerance (true) or by exhausting the iteration budget
(false). -/
def betaCFGo (x : JSNum) (a b : ℚ) : ℕ → ℕ → JSNum × JSNum × JSNum → JSNum × Bool
  | 0, _, (_, _, h) => (h, false)
  | fuel + 1, m, s =>
    let r := betaCFStep x a b m s
    if r.2 then (r.1.2.2, true) else betaCFGo x a b fuel (m + 1) r.1

/-- Model of betaCF in correlationAnalysis.ts: modified Lentz continued
fraction for the incomplete beta function, 200 iterations maximum, with the
1e-8 floor on near-zero denominators.  The second component is the
convergence observation (true when the loop met the tolerance); the source
function returns only the first component. -/
def betaCFRun (x : JSNum) (a b : ℚ) : JSNum × Bool :=
  let qab := a + b
  let qap := a + 1
  let d0 := jsSub (fin 1) (jsDiv (jsMul (fin qab) x) (fin qap))
  let d1 := if jsLt (jsAbs d0) (fin betaEpsilon) then fin betaEpsilon else d0
  let d2 := jsDiv (fin 1) d1
  betaCFGo x a b 200 1 (fin 1, d2, d2)

/-- Value returned by betaCF in the source: the continued-fraction estimate,
with no convergence information attached. -/
def betaCF (x : JSNum) (a b : ℚ) : JSNum := (betaCFRun x a b).1

/-- Convergence observation of the betaCF loop: false when the 200-iteration
budget was exhausted without the update shrinking below 1e-8.  This value is
computed by the model only; the source exposes nothing of it. -/
def betaCFConverged (x : JSNum) (a b : ℚ) : Bool := (betaCFRun x a b).2

/-- Model of incompleteBeta in correlationAnalysis.ts. -/
def incompleteBeta (x : JSNum) (a b : ℚ) : JSNum :=
  if x = fin 0 then fin 0
  else if x = fin 1 then fin 1
  else
    let lnBeta := jsSub (jsSub (gammaLn (a + b)) (gammaLn a)) (gammaLn b)
    let bt := jsExp (jsSub (jsAdd (jsMul (jsLog x) (fin a))
      (jsMul (jsLog (jsSub (fin 1) x)) (fin b))) lnBeta)
    if jsLt x (fin ((a + 1) / (a + b + 2))) then
      jsDiv (jsMul bt (betaCF x a b)) (fin a)
    else
      jsSub (fin 1) (jsDiv (jsMul bt (betaCF (jsSub (fin 1) x) b a)) (fin b))

/-- Model of calculateTDistributionPValue in correlationAnalysis.ts. -/
def calculateTDistributionPValue (t : JSNum) (df : ℚ) : JSNum :=
  let x := jsDiv (fin df) (jsAdd (fin df) (jsMul t t))
  jsSub (fin 1) (incompleteBeta x (df / 2) 0.5)

/-- Sum of a list of rationals, modelling reduce((a, b) => a + b) on a
non-empty array. -/
def listSum (l : List ℚ) : ℚ := l.foldl (· + ·) 0

/-- Model of calculatePearsonCorrelation in correlationAnalysis.ts.  The
source performs no input validation whatsoever; the only failure it can
exhibit is the TypeError thrown by reduce on an empty array, modelled as
none.  Every other input produces a result record. -/
def calculatePearsonCorrelation (x y : List ℚ) : Option CorrelationResult :=
  if x = [] ∨ y = [] then none else
  let n := x.length
  let xMean := listSum x / n
  let yMean := listSum y / n
  let numerator := (List.range n).foldl
    (fun acc i => acc + (x.getD i 0 - xMean) * (y.getD i 0 - yMean)) 0
  let xDenominator := (List.range n).foldl
    (fun acc i => acc + (x.getD i 0 - xMean) * (x.getD i 0 - xMean)) 0
  let yDenominator := (List.range n).foldl
    (fun acc i => acc + (y.getD i 0 - yMean) * (y.getD i 0 - yMean)) 0
  let r := jsDiv (fin numerator) (jsSqrt (fin (xDenominator * yDenominator)))
  let tStat := jsMul r (jsSqrt (jsDiv (fin ((n : ℚ) - 2)) (jsSub (fin 1) (jsMul r r))))
  let pValue := calculateTDistributionPValue tStat ((n : ℚ) - 2)
  some { coefficient := r, pValue := pValue, significant := jsLt pValue (fin 0.05) }

/-- First index of v in l, modelling Array.prototype.indexOf for a value
that is present. -/
def indexOfQ (l : List ℚ) (v : ℚ) : ℕ := l.findIdx (fun w => decide (w = v))

/-- Model of calculateRanks in correlationAnalysis.ts: sort ascending, then
rank each value as one plus the index of its first occurrence in the sorted
array.  All tied values therefore receive the rank of the first occurrence,
not the average of their occupied positions. -/
def calculateRanks (values : List ℚ) : List ℚ :=
  let sorted := List.insertionSort (· ≤ ·) values
  values.map (fun v => (indexOfQ sorted v : ℚ) + 1)

/-- Model of calculateSpearmanCorrelation in correlationAnalysis.ts:
Pearson correlation of the rank transforms. -/
def calculateSpearmanCorrelation (x y : List ℚ) : Option CorrelationResult :=
  calculatePearsonCorrelation (calculateRanks x) (calculateRanks y)

/-- Modelled from the spec: the average-rank-for-ties transform that the
specification requires of the rank step (every group of equal values
receives the mean of the rank positions they jointly occupy).  This
definition exists only for comparison with calculateRanks; the source
contains no such transform. -/
def averageRanks (values : List ℚ) : List ℚ :=
  let sorted := List.insertionSort (· ≤ ·) values
  values.map (fun v =>
    ((indexOfQ sorted v : ℚ) + 1 +
      ((indexOfQ sorted v : ℚ) + (sorted.countP (fun w => decide (w = v)) : ℚ))) / 2)

/-- Model of erf in correlationAnalysis.ts (Abramowitz-Stegun style rational
approximation).  The exponential is transcendental, so the finite value is
untracked; special-value propagation is exact. -/
def erf (x : JSNum) : JSNum :=
  let t := jsDiv (fin 1) (jsAdd (fin 1) (jsMul (fin 0.5) (jsAbs x)))
  let poly :=
    jsAdd (jsSub (jsNeg (jsMul x x)) (fin 1.26551223))
      (jsAdd (jsMul (fin 1.00002368) t)
        (jsAdd (jsMul (fin 0.37409196) (jsMul t t))
          (jsAdd (jsMul (fin 0.09678418) (jsMul t (jsMul t t)))
            (jsAdd (jsNeg (jsMul (fin 0.18628806) (jsMul t (jsMul t (jsMul t t)))))
              (jsAdd (jsMul (fin 0.27886807) (jsMul t (jsMul t (jsMul t (jsMul t t)))))
                (jsAdd (jsNeg (jsMul (fin 1.13520398)
                    (jsMul t (jsMul t (jsMul t (jsMul t (jsMul t t)))))))
                  (jsAdd (jsMul (fin 1.48851587)
                      (jsMul t (jsMul t (jsMul t (jsMul t (jsMul t (jsMul t t)))))))
                    (jsAdd (jsNeg (jsMul (fin 0.82215223)
                        (jsMul t (jsMul t (jsMul t (jsMul t (jsMul t (jsMul t (jsMul t t)))))))))
                      (jsMul (fin 0.17087277)
                        (jsMul t (jsMul t (jsMul t (jsMul t (jsMul t (jsMul t (jsMul t (jsMul t t)))))))))))))))))
  let tau := jsMul t (jsExp poly)
  if jsLe (fin 0) x then jsSub (fin 1) tau else jsSub tau (fin 1)

/-- Model of normalCDF in correlationAnalysis.ts. -/
def normalCDF (x : JSNum) : JSNum :=
  jsMul (fin 0.5) (jsAdd (fin 1) (erf (jsDiv x (jsSqrt (fin 2)))))

/-- Index pairs (i, j) with i < j < n: the unordered pairs visited by the
double loop of calculateKendallTau. -/
def kendallPairs (n : ℕ) : Finset (ℕ × ℕ) :=
  (Finset.range n ×ˢ Finset.range n).filter (fun p => p.1 < p.2)

/-- Number of pairs the loop of calculateKendallTau counts as concordant:
those with (x[j] - x[i]) * (y[j] - y[i]) > 0. -/
def kendallConcordant (x y : List ℚ) : ℕ :=
  ((kendallPairs x.length).filter
    (fun p => 0 < (x.getD p.2 0 - x.getD p.1 0) * (y.getD p.2 0 - y.getD p.1 0))).card

/-- Number of pairs the loop of calculateKendallTau counts as discordant:
those with (x[j] - x[i]) * (y[j] - y[i]) < 0. -/
def kendallDiscordant (x y : List ℚ) : ℕ :=
  ((kendallPairs x.length).filter
    (fun p => (x.getD p.2 0 - x.getD p.1 0) * (y.getD p.2 0 - y.getD p.1 0) < 0)).card

/-- Number of tied pairs: product exactly zero.  The loop of
calculateKendallTau increments neither counter for these. -/
def kendallTied (x y : List ℚ) : ℕ :=
  ((kendallPairs x.length).filter
    (fun p => (x.getD p.2 0 - x.getD p.1 0) * (y.getD p.2 0 - y.getD p.1 0) = 0)).card

/-- Model of calculateKendallTau in correlationAnalysis.ts. -/
def calculateKendallTau (x y : List ℚ) : CorrelationResult :=
  let n := x.length
  let tau := jsDiv (fin ((kendallConcordant x y : ℚ) - (kendallDiscordant x y : ℚ)))
    (fin ((n : ℚ) * ((n : ℚ) - 1) / 2))
  let var0 := jsDiv (fin (4 * (n : ℚ) + 10)) (fin (9 * (n : ℚ) * ((n : ℚ) - 1)))
  let z := jsDiv tau (jsSqrt var0)
  let pValue := jsMul (fin 2) (jsSub (fin 1) (normalCDF (jsAbs z)))
  { coefficient := tau, pValue := pValue, significant := jsLt pValue (fin 0.05) }

/-- Initial augmented matrix [M | I] of matrixInverse, as a function of row
and column index. -/
def matAug (m : List (List ℚ)) : ℕ → ℕ → JSNum := fun i j =>
  let n := m.length
  if j < n then fin ((m.getD i []).getD j 0) else if j = n + i then fin 1 else fin 0

/-- Partial-pivot row selection of matrixInverse: scan rows i+1..n-1 keeping
the row whose entry in column i has the largest absolute value. -/
def pivotRow (aug : ℕ → ℕ → JSNum) (i n : ℕ) : ℕ :=
  (List.range' (i + 1) (n - (i + 1))).foldl
    (fun maxRow j => if jsLt (jsAbs (aug maxRow i)) (jsAbs (aug j i)) then j else maxRow) i

/-- One outer iteration i of the Gaussian elimination loop of matrixInverse:
swap in the pivot row, divide the pivot row by the pivot (no singularity
check exists in the source; a zero pivot simply produces NaN and signed
infinities through jsDiv), then eliminate column i from every other row. -/
def gaussStep (n : ℕ) (aug : ℕ → ℕ → JSNum) (i : ℕ) : ℕ → ℕ → JSNum :=
  let maxRow := pivotRow aug i n
  let swapped := fun r c => if r = i then aug maxRow c else if r = maxRow then aug i c else aug r c
  let pivot := swapped i i
  let divided := fun r c =>
    if r = i ∧ i ≤ c ∧ c < 2 * n then jsDiv (swapped r c) pivot else swapped r c
  fun r c =>
    if r < n ∧ r ≠ i ∧ i ≤ c ∧ c < 2 * n then
      jsSub (divided r c) (jsMul (divided r i) (divided i c))
    else divided r c

/-- Model of matrixInverse in correlationAnalysis.ts: Gaussian elimination
with partial pivoting on the augmented system, returning the right half.
The source never tests the pivot against any tolerance and can throw
nothing; division by a zero pivot silently produces non-finite entries. -/
def matrixInverse (m : List (List ℚ)) : List (List JSNum) :=
  let n := m.length
  let final := (List.range n).foldl (gaussStep n) (matAug m)
  (List.range n).map (fun r => (List.range n).map (fun c => final r (n + c)))

/-- Model of reconstructPhaseSpace in part_013: time-delay embedding.  The
vector count N = len - (dimension - 1) * delay is computed in ordinary
integer arithmetic; when it is zero or negative the loop body never runs
and the function returns the empty list (no error exists in the source). -/
def reconstructPhaseSpace (timeSeries : List ℚ) (dimension delay : ℕ) : List (List ℚ) :=
  let N : ℤ := (timeSeries.length : ℤ) - ((dimension : ℤ) - 1) * (delay : ℤ)
  (List.range N.toNat).map
    (fun i => (List.range dimension).map (fun d => timeSeries.getD (i + d * delay) 0))

/-- One step of the classic fourth-order Runge-Kutta update of rungeKutta4
in part_013. -/
def rk4Step (f : ℚ → ℚ → ℚ) (h t y : ℚ) : ℚ :=
  let k1 := h * f t y
  let k2 := h * f (t + h / 2) (y + k1 / 2)
  let k3 := h * f (t + h / 2) (y + k2 / 2)
  let k4 := h * f (t + h) (y + k3)
  y + (k1 + 2 * k2 + 2 * k3 + k4) / 6

/-- Recursive form of the integration loop of rungeKutta4: from the current
time and state, produce the t-array and y-array for the given number of
remaining steps (both include the current point). -/
def rk4Go (f : ℚ → ℚ → ℚ) (h : ℚ) : ℕ → ℚ → ℚ → List ℚ × List ℚ
  | 0, t, y => ([t], [y])
  | steps + 1, t, y =>
    let next := rk4Go f h steps (t + h) (rk4Step f h t y)
    (t :: next.1, y :: next.2)

/-- Model of rungeKutta4 in part_013: n = ceil((tn - t0) / h) steps of the
classic method, returning the pair of time and state arrays of length
n + 1.  The time array is accumulated by repeated addition of h, which in
exact arithmetic equals t0 + i * h. -/
def rungeKutta4 (f : ℚ → ℚ → ℚ) (y0 t0 tn h : ℚ) : List ℚ × List ℚ :=
  rk4Go f h (⌈(tn - t0) / h⌉).toNat t0 y0

theorem jsAdd_nan_left (x : JSNum) : jsAdd nan x = nan := by cases x <;> rfl

/-- The exact rational square-root test succeeds on a perfect square. -/
theorem ratSqrtExact_sq (r : ℚ) (hr : 0 ≤ r) : ratSqrtExact (r * r) = some r := by
  obtain ⟨p, hp⟩ : ∃ p : ℕ, r.num = (p : ℤ) :=
    ⟨r.num.toNat, (Int.toNat_of_nonneg (Rat.num_nonneg.mpr hr)).symm⟩
  have hnum : (r * r).num = (p : ℤ) * p := by rw [Rat.mul_self_num r, hp]
  have hden : (r * r).den = r.den * r.den := Rat.mul_self_den r
  have hnt : (r * r).num.toNat = p * p := by
    rw [hnum, ← Int.natCast_mul, Int.toNat_natCast]
  have hs1 : Nat.sqrt (r * r).num.toNat = p := by rw [hnt, Nat.sqrt_eq]
  have hs2 : Nat.sqrt (r * r).den = r.den := by rw [hden, Nat.sqrt_eq]
  have hval : ((p : ℚ) / (r.den : ℚ)) = r := by
    rw [show ((p : ℚ)) = ((r.num : ℤ) : ℚ) by rw [hp]; norm_cast]
    exact Rat.num_div_den r
  have hcond : (Nat.sqrt (r * r).num.toNat : ℤ) * Nat.sqrt (r * r).num.toNat = (r * r).num ∧
      Nat.sqrt (r * r).den * Nat.sqrt (r * r).den = (r * r).den := by
    constructor
    · rw [hs1, hnum]
    · rw [hs2, hden]
  unfold ratSqrtExact
  rw [if_pos hcond, hs1, hs2]
  exact congrArg some hval

/-- Square-root evaluation rule: if a is the square of a nonnegative
rational r, Math.sqrt returns exactly r. -/
theorem jsSqrt_of_sq (a r : ℚ) (hr : 0 ≤ r) (h : r * r = a) : jsSqrt (fin a) = fin r := by
  subst h
  have hnn : ¬ (r * r < 0) := not_lt.mpr (mul_self_nonneg r)
  simp [jsSqrt, hnn, ratSqrtExact_sq r hr]

theorem jsSqrt_zero : jsSqrt (fin 0) = fin 0 := jsSqrt_of_sq 0 0 le_rfl (by norm_num)

theorem jsSqrt_400 : jsSqrt (fin 400) = fin 20 := jsSqrt_of_sq 400 20 (by norm_num) (by norm_num)

theorem jsSqrt_quarter : jsSqrt (fin (1 / 4)) = fin (1 / 2) :=
  jsSqrt_of_sq (1 / 4) (1 / 2) (by norm_num) (by norm_num)

theorem jsSqrt_inf : jsSqrt inf = inf := rfl

theorem jsSqrt_nan : jsSqrt nan = nan := rfl

/-- A continued-fraction step with NaN input wipes the whole state to NaN
and never meets the termination test. -/
theorem betaCFStep_nan (a b : ℚ) (m : ℕ) (s : JSNum × JSNum × JSNum) :
    betaCFStep nan a b m s = ((nan, nan, nan), false) := by
  obtain ⟨c, d, h⟩ := s
  simp [betaCFStep, jsMul_nan_left, jsMul_nan_right, jsDiv_nan_left, jsDiv_nan_right,
    jsAdd_nan_left, jsAdd_nan_right, jsSub_nan_left, jsSub_nan_right, jsAbs, jsLt]

/-- The fuelled loop run on NaN keeps returning NaN and the exhausted flag. -/
theorem betaCFGo_nan (a b : ℚ) (fuel : ℕ) :
    ∀ m c d, betaCFGo nan a b fuel m (c, d, nan) = (nan, false) := by
  induction fuel with
  | zero => intro m c d; rfl
  | succ k ih =>
    intro m c d
    simp [betaCFGo, betaCFStep_nan, ih]

/-- betaCF on NaN input returns NaN. -/
theorem betaCF_nan (a b : ℚ) : betaCF nan a b = nan := by
  simp [betaCF, betaCFRun, jsMul_nan_right, jsDiv_nan_left, jsDiv_nan_right,
    jsSub_nan_left, jsSub_nan_right, jsAdd_nan_right, jsAbs, jsLt, betaCFGo_nan]

/-- The convergence observation on NaN input is false: the 200 iterations
are exhausted without ever meeting the tolerance. -/
theorem betaCFConverged_nan (a b : ℚ) : betaCFConverged nan a b = false := by
  simp [betaCFConverged, betaCFRun, jsMul_nan_right, jsDiv_nan_left, jsDiv_nan_right,
    jsSub_nan_left, jsSub_nan_right, jsAdd_nan_right, jsAbs, jsLt, betaCFGo_nan]

/-- incompleteBeta propagates NaN silently. -/
theorem incompleteBeta_nan (a b : ℚ) : incompleteBeta nan a b = nan := by
  simp [incompleteBeta, jsLog, jsExp, jsMul_nan_left, jsMul_nan_right, jsAdd_nan_left,
    jsAdd_nan_right, jsSub_nan_left, jsSub_nan_right, jsDiv_nan_left, jsLt]

/-- The t-distribution p-value of a NaN statistic is NaN. -/
theorem tdist_nan (df : ℚ) : calculateTDistributionPValue nan df = nan := by
  simp [calculateTDistributionPValue, jsMul_nan_left, jsDiv_nan_right, jsAdd_nan_right,
    incompleteBeta_nan, jsSub_nan_right]

/-- C6: when the continued fraction never meets the 1e-8 tolerance within
the 200-iteration budget (as happens on the NaN input that the Pearson
routine feeds it for degenerate data), betaCF returns only its bare
numerical estimate, here NaN; the convergence observation is false, but the
source returns no such flag to the caller, so the claimed inspectable
non-converged flag does not exist.  No exception is raised: the function is
total. -/
theorem betaCF_exhausts_budget_returns_bare_estimate :
    betaCF nan (1 / 2) (1 / 2) = nan ∧ betaCFConverged nan (1 / 2) (1 / 2) = false :=
  ⟨betaCF_nan (1 / 2) (1 / 2), betaCFConverged_nan (1 / 2) (1 / 2)⟩

/-- C2: on the perfectly linear pair x = 1..5, y = 2x the source computes
r = 1 and then evaluates the t statistic anyway: (n-2)/(1-r*r) is 3/0 =
Infinity, t = Infinity, the regularized-beta argument collapses to 0 and
the returned p-value is 1 with significant = false - not the claimed
p-value 0 with significant = true. -/
theorem pearson_perfect_line_eval :
    calculatePearsonCorrelation [1, 2, 3, 4, 5] [2, 4, 6, 8, 10] =
      some { coefficient := fin 1, pValue := fin 1, significant := false } := by
  norm_num [calculatePearsonCorrelation, listSum, calculateTDistributionPValue,
    incompleteBeta, List.range_succ, List.getD, jsSqrt_400, jsSqrt_inf, jsDiv, jsMul,
    jsAdd, jsSub, jsNeg, jsLt]
  rintro (h | h) <;> simp at h

/-- C4: a zero-variance first input is not rejected; the Pearson routine
silently computes 0/0 = NaN and returns a NaN coefficient and NaN p-value
instead of surfacing an error. -/
theorem pearson_zero_variance_silent_nan :
    calculatePearsonCorrelation [1, 1, 1] [1, 2, 3] =
      some { coefficient := nan, pValue := nan, significant := false } := by
  norm_num [calculatePearsonCorrelation, listSum, List.range_succ, List.getD,
    jsSqrt_zero, jsSqrt_nan, tdist_nan, jsDiv, jsMul, jsAdd, jsSub, jsNeg, jsLt,
    jsMul_nan_left, jsMul_nan_right, jsDiv_nan_right, jsAdd_nan_right]
  rintro (h | h) <;> simp at h

/-- C5: a sample of size two is not rejected: no InvalidInputError exists in
the source, and the call returns a result record (coefficient 1, NaN
p-value) instead of failing. -/
theorem pearson_n2_returns_result :
    calculatePearsonCorrelation [1, 2] [3, 4] =
      some { coefficient := fin 1, pValue := nan, significant := false } := by
  norm_num [calculatePearsonCorrelation, listSum, calculateTDistributionPValue,
    List.range_succ, List.getD, jsSqrt_quarter, jsSqrt_nan, incompleteBeta_nan,
    jsDiv, jsMul, jsAdd, jsSub, jsNeg, jsLt, jsMul_nan_left, jsMul_nan_right,
    jsDiv_nan_left, jsDiv_nan_right, jsAdd_nan_right, jsSub_nan_right]
  rintro (h | h) <;> simp at h

/-- C1: the singular matrix [[1,2],[2,4]] is not rejected: matrixInverse has
no pivot-tolerance check and no error path, divides by the zero pivot that
partial pivoting leaves in the second column, and silently returns a matrix
of signed infinities. -/
theorem matrixInverse_singular_silent :
    matrixInverse [[1, 2], [2, 4]] = [[neginf, inf], [inf, neginf]] := by
  norm_num [matrixInverse, gaussStep, pivotRow, matAug, List.range_succ, List.range',
    List.getD, jsDiv, jsMul, jsAdd, jsSub, jsNeg, jsAbs, jsLt]

/-- C3: the rank transform used by calculateSpearmanCorrelation assigns tied
values the rank of their first occurrence in sorted order, not the average
of the occupied positions: on [1,1,2] it produces [1,1,3], while the
average-rank transform required by the specification produces
[3/2, 3/2, 3]. -/
theorem calculateRanks_first_occurrence_not_average :
    calculateRanks [1, 1, 2] = [1, 1, 3]
    ∧ averageRanks [1, 1, 2] = [3 / 2, 3 / 2, 3]
    ∧ calculateRanks [1, 1, 2] ≠ averageRanks [1, 1, 2] := by
  refine ⟨?_, ?_, ?_⟩ <;>
    norm_num [calculateRanks, averageRanks, indexOfQ, List.insertionSort,
      List.orderedInsert, List.findIdx, List.findIdx.go, List.countP, List.countP.go]

/-- C7 (amended): when len - (dimension-1)*delay is positive,
reconstructPhaseSpace returns exactly that many vectors, vector i having
length dimension and component d equal to series[i + d*delay].  (When the
range is empty or negative the source returns the empty list; see the
companion counterexample.) -/
theorem reconstructPhaseSpace_embedding (s : List ℚ) (dim delay : ℕ)
    (hpos : 0 < (s.length : ℤ) - ((dim : ℤ) - 1) * (delay : ℤ)) :
    ((reconstructPhaseSpace s dim delay).length : ℤ)
        = (s.length : ℤ) - ((dim : ℤ) - 1) * (delay : ℤ)
    ∧ ∀ i < (reconstructPhaseSpace s dim delay).length,
        ((reconstructPhaseSpace s dim delay).getD i []).length = dim
        ∧ ∀ d < dim, ((reconstructPhaseSpace s dim delay).getD i []).getD d 0
            = s.getD (i + d * delay) 0 := by
  constructor
  · simp only [reconstructPhaseSpace, List.length_map, List.length_range]
    exact Int.toNat_of_nonneg hpos.le
  · intro i hi
    have hlen : (reconstructPhaseSpace s dim delay).length
        = ((s.length : ℤ) - ((dim : ℤ) - 1) * (delay : ℤ)).toNat := by
      simp [reconstructPhaseSpace]
    have hi2 : i < ((s.length : ℤ) - ((dim : ℤ) - 1) * (delay : ℤ)).toNat := hlen ▸ hi
    have hvec : (reconstructPhaseSpace s dim delay).getD i []
        = (List.range dim).map (fun d => s.getD (i + d * delay) 0) := by
      rw [reconstructPhaseSpace]
      rw [List.getD_eq_getElem _ _ (by simpa using hi2)]
      simp
    refine ⟨by rw [hvec]; simp, fun d hd => ?_⟩
    rw [hvec, List.getD_eq_getElem _ _ (by simpa using hd)]
    simp

/-- C7 counterexample: a length-3 series with dimension 3 and delay 2 has
range 3 - 2*2 = -1; the source raises nothing and returns the empty list
rather than failing with InvalidInputError. -/
theorem reconstructPhaseSpace_negative_range_returns_empty :
    reconstructPhaseSpace [1, 2, 3] 3 2 = [] := rfl

/-- C7 witness: the length-10 series with dimension 3 and delay 2 yields
exactly 6 vectors, the first of which has length 3. -/
theorem reconstructPhaseSpace_embedding_witness :
    (0 : ℤ) < (([1, 2, 3, 4, 5, 6, 7, 8, 9, 10] : List ℚ).length : ℤ) - ((3 : ℤ) - 1) * 2
    ∧ (reconstructPhaseSpace [1, 2, 3, 4, 5, 6, 7, 8, 9, 10] 3 2).length = 6
    ∧ ((reconstructPhaseSpace [1, 2, 3, 4, 5, 6, 7, 8, 9, 10] 3 2).getD 0 []).length = 3 := by
  have h := reconstructPhaseSpace_embedding [1, 2, 3, 4, 5, 6, 7, 8, 9, 10] 3 2 (by norm_num)
  have h1 := h.1
  norm_num at h1
  have h2 : (reconstructPhaseSpace [1, 2, 3, 4, 5, 6, 7, 8, 9, 10] 3 2).length = 6 := by
    exact_mod_cast h1
  refine ⟨by norm_num, h2, ?_⟩
  exact (h.2 0 (by rw [h2]; norm_num)).1

theorem rk4Go_fst_length (f : ℚ → ℚ → ℚ) (h : ℚ) :
    ∀ (k : ℕ) (t y : ℚ), (rk4Go f h k t y).1.length = k + 1 := by
  intro k
  induction k with
  | zero => intro t y; rfl
  | succ n ih => intro t y; simp [rk4Go, ih]

theorem rk4Go_snd_length (f : ℚ → ℚ → ℚ) (h : ℚ) :
    ∀ (k : ℕ) (t y : ℚ), (rk4Go f h k t y).2.length = k + 1 := by
  intro k
  induction k with
  | zero => intro t y; rfl
  | succ n ih => intro t y; simp [rk4Go, ih]

theorem rk4Go_fst_getD (f : ℚ → ℚ → ℚ) (h : ℚ) :
    ∀ (k : ℕ) (t y : ℚ) (i : ℕ), i ≤ k → (rk4Go f h k t y).1.getD i 0 = t + i * h := by
  intro k
  induction k with
  | zero =>
    intro t y i hi
    interval_cases i
    simp [rk4Go]
  | succ n ih =>
    intro t y i hi
    cases i with
    | zero => simp [rk4Go]
    | succ j =>
      have := ih (t + h) (rk4Step f h t y) j (Nat.lt_succ_iff.mp hi)
      simp only [rk4Go, List.getD_cons_succ, this]
      push_cast
      ring

theorem rk4Go_snd_getD_zero (f : ℚ → ℚ → ℚ) (h : ℚ) (k : ℕ) (t y : ℚ) :
    (rk4Go f h k t y).2.getD 0 0 = y := by
  cases k <;> rfl

theorem rk4Go_snd_step (f : ℚ → ℚ → ℚ) (h : ℚ) :
    ∀ (k : ℕ) (t y : ℚ) (i : ℕ), i < k →
      (rk4Go f h k t y).2.getD (i + 1) 0 =
        rk4Step f h ((rk4Go f h k t y).1.getD i 0) ((rk4Go f h k t y).2.getD i 0) := by
  intro k
  induction k with
  | zero => intro t y i hi; exact absurd hi (Nat.not_lt_zero i)
  | succ n ih =>
    intro t y i hi
    cases i with
    | zero =>
      simp only [rk4Go, List.getD_cons_succ, List.getD_cons_zero]
      rw [rk4Go_snd_getD_zero]
    | succ j =>
      have := ih (t + h) (rk4Step f h t y) j (Nat.succ_lt_succ_iff.mp hi)
      simp only [rk4Go, List.getD_cons_succ, this]

/-- C9: for tn > t0 and h > 0, rungeKutta4 returns time and state arrays of
length n + 1 with n = ceil((tn - t0) / h); the time array holds t0 + i*h,
the state array starts at y0, and consecutive states are related by the
classic four-stage update rk4Step (weights (k1 + 2k2 + 2k3 + k4)/6). -/
theorem rungeKutta4_classic (f : ℚ → ℚ → ℚ) (y0 t0 tn h : ℚ)
    (hlt : t0 < tn) (hh : 0 < h) :
    (rungeKutta4 f y0 t0 tn h).1.length = (⌈(tn - t0) / h⌉).toNat + 1
    ∧ (rungeKutta4 f y0 t0 tn h).2.length = (⌈(tn - t0) / h⌉).toNat + 1
    ∧ (∀ i ≤ (⌈(tn - t0) / h⌉).toNat,
        (rungeKutta4 f y0 t0 tn h).1.getD i 0 = t0 + i * h)
    ∧ (rungeKutta4 f y0 t0 tn h).2.getD 0 0 = y0
    ∧ ∀ i < (⌈(tn - t0) / h⌉).toNat,
        (rungeKutta4 f y0 t0 tn h).2.getD (i + 1) 0 =
          rk4Step f h ((rungeKutta4 f y0 t0 tn h).1.getD i 0)
            ((rungeKutta4 f y0 t0 tn h).2.getD i 0) :=
  ⟨rk4Go_fst_length f h _ t0 y0,
   rk4Go_snd_length f h _ t0 y0,
   fun i hi => rk4Go_fst_getD f h _ t0 y0 i hi,
   rk4Go_snd_getD_zero f h _ t0 y0,
   fun i hi => rk4Go_snd_step f h _ t0 y0 i hi⟩

/-- C9 witness: integrating with f(t, y) = y from t0 = 0 to tn = 1 with
step 1/2 takes ceil(2) = 2 steps and returns arrays of length 3. -/
theorem rungeKutta4_classic_witness :
    ((0 : ℚ) < 1 ∧ (0 : ℚ) < 1 / 2)
    ∧ (rungeKutta4 (fun _ y => y) 1 0 1 (1 / 2)).1.length =
        (⌈((1 : ℚ) - 0) / (1 / 2)⌉).toNat + 1 :=
  ⟨⟨by norm_num, by norm_num⟩,
   (rungeKutta4_classic (fun _ y => y) 1 0 1 (1 / 2) (by norm_num) (by norm_num)).1⟩

theorem kendallPairs_mem (n : ℕ) (p : ℕ × ℕ) :
    p ∈ kendallPairs n ↔ p.1 < p.2 ∧ p.2 < n := by
  cases p with
  | mk i j =>
    simp [kendallPairs, Finset.mem_filter, Finset.mem_product]
    omega

theorem kendallPairs_succ (n : ℕ) :
    kendallPairs (n + 1) = kendallPairs n ∪ (Finset.range n).image (fun i => (i, n)) := by
  ext p
  rw [Finset.mem_union, kendallPairs_mem, kendallPairs_mem, Finset.mem_image]
  constructor
  · rintro ⟨hij, hj⟩
    rcases Nat.lt_succ_iff_lt_or_eq.mp hj with h | h
    · exact Or.inl ⟨hij, h⟩
    · exact Or.inr ⟨p.1, Finset.mem_range.mpr (h ▸ hij), Prod.ext rfl h.symm⟩
  · rintro (⟨hij, hj⟩ | ⟨a, ha, rfl⟩)
    · exact ⟨hij, Nat.lt_succ_of_lt hj⟩
    · exact ⟨Finset.mem_range.mp ha, Nat.lt_succ_self n⟩

theorem kendallPairs_card (n : ℕ) : (kendallPairs n).card * 2 = n * (n - 1) := by
  induction n with
  | zero =>
    have h0 : kendallPairs 0 = ∅ := by
      ext p
      simp [kendallPairs_mem]
    simp [h0]
  | succ m ih =>
    have hdisj : Disjoint (kendallPairs m) ((Finset.range m).image (fun i => (i, m))) := by
      rw [Finset.disjoint_left]
      intro p hp hq
      rcases Finset.mem_image.mp hq with ⟨a, _, ha⟩
      have h1 := (kendallPairs_mem m p).mp hp
      rw [← ha] at h1
      exact absurd h1.2 (lt_irrefl m)
    have hinj : Function.Injective (fun i : ℕ => (i, m)) := by
      intro a b hab
      simpa using hab
    rw [kendallPairs_succ, Finset.card_union_of_disjoint hdisj,
      Finset.card_image_of_injective _ hinj, Finset.card_range]
    cases m with
    | zero =>
      have h0 : kendallPairs 0 = ∅ := by
        ext p
        simp [kendallPairs_mem]
      simp [h0]
    | succ k =>
      have hm : (k + 1) * (k + 1 - 1) = (k + 1) * k := rfl
      rw [hm] at ih
      calc ((kendallPairs (k + 1)).card + (k + 1)) * 2
          = (kendallPairs (k + 1)).card * 2 + (k + 1) * 2 := by ring
        _ = (k + 1) * k + (k + 1) * 2 := by rw [ih]
        _ = (k + 1 + 1) * (k + 1 + 1 - 1) := by
            rw [show k + 1 + 1 - 1 = k + 1 from rfl]
            ring

theorem kendallPairs_card_q (n : ℕ) (hn : 1 ≤ n) :
    ((kendallPairs n).card : ℚ) = (n : ℚ) * ((n : ℚ) - 1) / 2 := by
  have h2 : ((kendallPairs n).card * 2 : ℕ) = (n * (n - 1) : ℕ) := kendallPairs_card n
  have hq : ((kendallPairs n).card : ℚ) * 2 = (n : ℚ) * ((n : ℚ) - 1) := by
    have hc := congrArg (fun m : ℕ => (m : ℚ)) h2
    push_cast [Nat.cast_sub hn] at hc
    exact hc
  linarith [hq]

theorem kendallDiscordant_self (x : List ℚ) : kendallDiscordant x x = 0 := by
  unfold kendallDiscordant
  rw [Finset.card_eq_zero, Finset.filter_eq_empty_iff]
  intro p _
  exact not_lt.mpr (mul_self_nonneg _)

theorem kendallConcordant_self_of_pairwise (x : List ℚ)
    (hmono : List.Pairwise (· < ·) x) :
    kendallConcordant x x = (kendallPairs x.length).card := by
  unfold kendallConcordant
  congr 1
  apply Finset.filter_true_of_mem
  intro p hp
  rcases (kendallPairs_mem _ p).mp hp with ⟨hij, hj⟩
  have hi : p.1 < x.length := lt_trans hij hj
  have hget := List.pairwise_iff_get.mp hmono ⟨p.1, hi⟩ ⟨p.2, hj⟩ (Fin.mk_lt_mk.mpr hij)
  have hlt2 : x.getD p.1 0 < x.getD p.2 0 := by
    rw [List.getD_eq_getElem _ _ hi, List.getD_eq_getElem _ _ hj]
    simpa [List.get_eq_getElem] using hget
  exact mul_pos (sub_pos.mpr hlt2) (sub_pos.mpr hlt2)

/-- Every finite set is partitioned by the sign of a rational-valued
function into the positive, negative and zero fibres. -/
theorem filter_sign_partition {α : Type} (P : Finset α) (e : α → ℚ)
    [DecidablePred fun p => 0 < e p] [DecidablePred fun p => e p < 0]
    [DecidablePred fun p => e p = 0] :
    (P.filter (fun p => 0 < e p)).card + (P.filter (fun p => e p < 0)).card
      + (P.filter (fun p => e p = 0)).card = P.card := by
  classical
  have h1 : (P.filter (fun p => 0 < e p)).card
      + (P.filter (fun p => ¬ 0 < e p)).card = P.card :=
    Finset.filter_card_add_filter_neg_card_eq_card _
  have hsplit : P.filter (fun p => ¬ 0 < e p)
      = P.filter (fun p => e p < 0) ∪ P.filter (fun p => e p = 0) := by
    rw [← Finset.filter_or]
    apply Finset.filter_congr
    intro p _
    constructor
    · intro h
      rcases lt_or_eq_of_le (not_lt.mp h) with h2 | h2
      · exact Or.inl h2
      · exact Or.inr h2
    · rintro (h | h)
      · exact not_lt.mpr h.le
      · exact not_lt.mpr h.le
  have hdisj2 : Disjoint (P.filter (fun p => e p < 0)) (P.filter (fun p => e p = 0)) := by
    rw [Finset.disjoint_left]
    intro p hp hq
    have ha := (Finset.mem_filter.mp hp).2
    have hb := (Finset.mem_filter.mp hq).2
    exact absurd hb (ne_of_lt ha)
  rw [hsplit, Finset.card_union_of_disjoint hdisj2] at h1
  omega

/-- The double loop of calculateKendallTau sorts every unordered pair into
exactly one of three classes: concordant (product positive), discordant
(product negative) or tied (product zero). -/
theorem kendall_partition (x y : List ℚ) :
    kendallConcordant x y + kendallDiscordant x y + kendallTied x y
      = (kendallPairs x.length).card := by
  unfold kendallConcordant kendallDiscordant kendallTied
  exact filter_sign_partition (kendallPairs x.length)
    (fun p => (x.getD p.2 0 - x.getD p.1 0) * (y.getD p.2 0 - y.getD p.1 0))

/-- C8: for equal-length inputs with n at least 2, the Kendall coefficient
is exactly (C - D) / (n(n-1)/2) with C and D the concordant and discordant
pair counts, it always lies in [-1, 1], and a strictly increasing sequence
paired with itself yields exactly 1. -/
theorem calculateKendallTau_formula_and_bounds (x y : List ℚ)
    (hlen : y.length = x.length) (hn : 2 ≤ x.length) :
    (calculateKendallTau x y).coefficient
      = fin (((kendallConcordant x y : ℚ) - (kendallDiscordant x y : ℚ))
          / ((x.length : ℚ) * ((x.length : ℚ) - 1) / 2))
    ∧ (∀ q : ℚ, (calculateKendallTau x y).coefficient = fin q → -1 ≤ q ∧ q ≤ 1)
    ∧ (List.Pairwise (· < ·) x → (calculateKendallTau x x).coefficient = fin 1) := by
  have hc2 : (2 : ℚ) ≤ (x.length : ℚ) := by exact_mod_cast hn
  have hTpos : 0 < (x.length : ℚ) * ((x.length : ℚ) - 1) / 2 := by nlinarith
  have hTne : ((x.length : ℚ) * ((x.length : ℚ) - 1) / 2) ≠ 0 := ne_of_gt hTpos
  have hTq : ((kendallPairs x.length).card : ℚ)
      = (x.length : ℚ) * ((x.length : ℚ) - 1) / 2 :=
    kendallPairs_card_q x.length (le_trans (by norm_num) hn)
  have hcoef : ∀ z : List ℚ, (calculateKendallTau x z).coefficient
      = fin (((kendallConcordant x z : ℚ) - (kendallDiscordant x z : ℚ))
          / ((x.length : ℚ) * ((x.length : ℚ) - 1) / 2)) := by
    intro z
    simp only [calculateKendallTau]
    rw [jsDiv_fin_fin_of_ne _ _ hTne]
  refine ⟨hcoef y, ?_, ?_⟩
  · intro q hq
    rw [hcoef y] at hq
    have hqe : ((kendallConcordant x y : ℚ) - (kendallDiscordant x y : ℚ))
        / ((x.length : ℚ) * ((x.length : ℚ) - 1) / 2) = q := by simpa using hq
    have hC : kendallConcordant x y ≤ (kendallPairs x.length).card :=
      Finset.card_filter_le _ _
    have hD : kendallDiscordant x y ≤ (kendallPairs x.length).card :=
      Finset.card_filter_le _ _
    have hCq : (kendallConcordant x y : ℚ) ≤ (x.length : ℚ) * ((x.length : ℚ) - 1) / 2 := by
      rw [← hTq]; exact_mod_cast hC
    have hDq : (kendallDiscordant x y : ℚ) ≤ (x.length : ℚ) * ((x.length : ℚ) - 1) / 2 := by
      rw [← hTq]; exact_mod_cast hD
    have hCnn : (0 : ℚ) ≤ (kendallConcordant x y : ℚ) := by positivity
    have hDnn : (0 : ℚ) ≤ (kendallDiscordant x y : ℚ) := by positivity
    subst hqe
    constructor
    · rw [le_div_iff hTpos]
      linarith
    · rw [div_le_one hTpos]
      linarith
  · intro hmono
    rw [hcoef x, kendallConcordant_self_of_pairwise x hmono, kendallDiscordant_self, hTq]
    norm_num [div_self hTne]

/-- C8 witness: a strictly increasing triple paired with a double-length
check discharges the hypotheses, and pairing it with itself yields
coefficient exactly 1. -/
theorem calculateKendallTau_formula_and_bounds_witness :
    ([2, 4, 6] : List ℚ).length = ([1, 2, 3] : List ℚ).length
    ∧ 2 ≤ ([1, 2, 3] : List ℚ).length
    ∧ (calculateKendallTau [1, 2, 3] [1, 2, 3]).coefficient = fin 1 := by
  refine ⟨rfl, by norm_num, ?_⟩
  exact (calculateKendallTau_formula_and_bounds [1, 2, 3] [2, 4, 6] rfl (by norm_num)).2.2
    (by norm_num [List.pairwise_cons])

/-- C10: pairs with product zero are counted neither as concordant nor as
discordant while the denominator stays n(n-1)/2 (the three classes
partition all unordered pairs), and consequently a sequence containing a
repeated value paired with itself has coefficient strictly below 1. -/
theorem kendallTau_tie_pairs_uncounted (x y : List ℚ) (i j : ℕ)
    (hij : i < j) (hj : j < x.length) (heq : x.getD i 0 = x.getD j 0) :
    (kendallConcordant x y + kendallDiscordant x y + kendallTied x y
        = (kendallPairs x.length).card)
    ∧ ∃ q : ℚ, (calculateKendallTau x x).coefficient = fin q ∧ q < 1 := by
  refine ⟨kendall_partition x y, ?_⟩
  have hn : 2 ≤ x.length := by omega
  have hc2 : (2 : ℚ) ≤ (x.length : ℚ) := by exact_mod_cast hn
  have hTpos : 0 < (x.length : ℚ) * ((x.length : ℚ) - 1) / 2 := by nlinarith
  have hTne : ((x.length : ℚ) * ((x.length : ℚ) - 1) / 2) ≠ 0 := ne_of_gt hTpos
  have hTq : ((kendallPairs x.length).card : ℚ)
      = (x.length : ℚ) * ((x.length : ℚ) - 1) / 2 :=
    kendallPairs_card_q x.length (le_trans (by norm_num) hn)
  have hD := kendallDiscordant_self x
  have htied : 0 < kendallTied x x := by
    apply Finset.card_pos.mpr
    refine ⟨(i, j), Finset.mem_filter.mpr ⟨(kendallPairs_mem _ _).mpr ⟨hij, hj⟩, ?_⟩⟩
    have hz : x.getD j 0 - x.getD i 0 = 0 := by rw [heq]; ring
    simp only [hz, zero_mul, mul_zero]
  have hpart := kendall_partition x x
  rw [hD] at hpart
  have hCle : kendallConcordant x x + 1 ≤ (kendallPairs x.length).card := by omega
  have hCq : (kendallConcordant x x : ℚ) + 1 ≤ (x.length : ℚ) * ((x.length : ℚ) - 1) / 2 := by
    rw [← hTq]; exact_mod_cast hCle
  refine ⟨((kendallConcordant x x : ℚ) - (kendallDiscordant x x : ℚ))
      / ((x.length : ℚ) * ((x.length : ℚ) - 1) / 2), ?_, ?_⟩
  · simp only [calculateKendallTau]
    rw [jsDiv_fin_fin_of_ne _ _ hTne]
  · rw [hD, div_lt_one hTpos]
    push_cast
    linarith

/-- C10 witness: the sequence [1,1,2] repeats the value 1, and its Kendall
coefficient against itself is strictly below 1. -/
theorem kendallTau_tie_pairs_uncounted_witness :
    (0 : ℕ) < 1 ∧ 1 < ([1, 1, 2] : List ℚ).length
    ∧ ∃ q : ℚ, (calculateKendallTau [1, 1, 2] [1, 1, 2]).coefficient = fin q ∧ q < 1 := by
  refine ⟨by norm_num, by norm_num, ?_⟩
  exact (kendallTau_tie_pairs_uncounted [1, 1, 2] [1, 1, 2] 0 1 (by norm_num) (by norm_num)
    (by norm_num [List.getD])).2
